import Mathlib

/-!
Verification of the backup-archiving engine (`archive_backups.py`).

Object keys and path fragments (Python `str`) are modelled as lists of
characters.  The Google Cloud Storage backend is modelled as an explicit
state: the source bucket as an association list of `(key, content)` pairs
(the engine lists it by key prefix) and the target bucket as a partial map
from keys to contents (the engine only ever writes it).  The behaviour of
the backend during one `move_blob` call (what content the copy lands, a
falsy `copy_blob` return, a raised exception, a failing `delete`) is
supplied by an environment value, since those are external outcomes the
code reacts to.  Contents stand in for object payloads and checksums:
two objects are checksum-equal exactly when their contents are equal.
-/

namespace BackupArchiving

/-- Object keys / path fragments: Python strings as lists of characters. -/
abbrev Key := List Char

/-- Python `p` is a leading part of `s` (`str.startswith`); also the
semantics of `list_blobs(prefix=p)` membership. -/
def strStarts : Key → Key → Bool
  | [], _ => true
  | _ :: _, [] => false
  | a :: p, b :: s => a == b && strStarts p s

/-- Python `s.endswith(suf)`, via reversal. -/
def strEnds (suf s : Key) : Bool := strStarts suf.reverse s.reverse

/-- Left-to-right scanner for `str.replace` with a non-empty pattern.
While `skip > 0` the scanner is still consuming the characters of an
occurrence it has already replaced; at `skip = 0` it either recognises an
occurrence of `old` (emits `new`, then skips the remaining `old.length - 1`
matched characters) or emits the current character. -/
def pyReplaceGo (old new : Key) : Nat → Key → Key
  | _ + 1, [] => []
  | skip + 1, _ :: rest => pyReplaceGo old new skip rest
  | 0, [] => []
  | 0, c :: rest =>
    if strStarts old (c :: rest) then new ++ pyReplaceGo old new (old.length - 1) rest
    else c :: pyReplaceGo old new 0 rest

/-- `new` interleaved before every character and at the end: CPython's
`s.replace("", new)`. -/
def interNew (new : Key) : Key → Key
  | [] => new
  | c :: rest => new ++ c :: interNew new rest

/-- Python `s.replace(old, new)`: replace every non-overlapping occurrence
of `old`, scanning left to right; an empty `old` inserts `new` at every
position (CPython behaviour).  This is the operation used at line 114 of
the source to compute the destination key. -/
def pyReplace (old new s : Key) : Key :=
  if old.isEmpty then interNew new s else pyReplaceGo old new 0 s

/-- `old` occurs as a contiguous substring of `s` (Python `old in s`). -/
def hasOcc (old : Key) : Key → Bool
  | [] => old.isEmpty
  | c :: rest => strStarts old (c :: rest) || hasOcc old rest

/-- `os.path.basename`: the part of the key after the last slash. -/
def basename (s : Key) : Key := (s.reverse.takeWhile (fun c => c != '/')).reverse

/-! ### The strptime `%Y-%m-%d` parser

CPython's `_strptime` compiles `%Y` to the regex `\d\d\d\d`, `%m` to
`1[0-2]|0[1-9]|[1-9]` and `%d` to `3[01]|[12]\d|0[1-9]|[1-9]`, matches the
whole pattern from the start of the string, raises if unconverted data
remains, and finally the `datetime` constructor re-checks calendar
validity.  The alternation lists below keep the alternatives in regex
order; at each group at most one alternative can extend to a full parse,
so trying them in order with a full-consumption continuation is equivalent
to the regex-then-leftover-check that CPython performs. -/

def isDigitCh (c : Char) : Bool := 48 ≤ c.toNat && c.toNat ≤ 57

/-- Numeric value of a digit character. -/
def dv (c : Char) : Nat := c.toNat - 48

/-- Alternatives of the `%m` regex `1[0-2]|0[1-9]|[1-9]`, in order, each
with the month value and the unconsumed remainder. -/
def monthAlts (s : Key) : List (Nat × Key) :=
  (match s with
   | '1' :: c :: rest => if 48 ≤ c.toNat && c.toNat ≤ 50 then [(10 + dv c, rest)] else []
   | _ => []) ++
  (match s with
   | '0' :: c :: rest => if 49 ≤ c.toNat && c.toNat ≤ 57 then [(dv c, rest)] else []
   | _ => []) ++
  (match s with
   | c :: rest => if 49 ≤ c.toNat && c.toNat ≤ 57 then [(dv c, rest)] else []
   | _ => [])

/-- Alternatives of the `%d` regex `3[01]|[12]\d|0[1-9]|[1-9]`, in order. -/
def dayAlts (s : Key) : List (Nat × Key) :=
  (match s with
   | '3' :: c :: rest => if 48 ≤ c.toNat && c.toNat ≤ 49 then [(30 + dv c, rest)] else []
   | _ => []) ++
  (match s with
   | a :: c :: rest =>
     if (49 ≤ a.toNat && a.toNat ≤ 50) && isDigitCh c then [(10 * dv a + dv c, rest)] else []
   | _ => []) ++
  (match s with
   | '0' :: c :: rest => if 49 ≤ c.toNat && c.toNat ≤ 57 then [(dv c, rest)] else []
   | _ => []) ++
  (match s with
   | c :: rest => if 49 ≤ c.toNat && c.toNat ≤ 57 then [(dv c, rest)] else []
   | _ => [])

/-- First alternative on which the continuation succeeds. -/
def firstSome {α β : Type} (f : α → Option β) : List α → Option β
  | [] => none
  | a :: as =>
    match f a with
    | some b => some b
    | none => firstSome f as

/-- Parse the day group and require the whole string to be consumed
(strptime's unconverted-data check). -/
def dayScan (m : Nat) (s : Key) : Option (Nat × Nat) :=
  firstSome (fun dr => if dr.2.isEmpty then some (m, dr.1) else none) (dayAlts s)

/-- Parse `m-d` after the year and its dash. -/
def parseMD (s : Key) : Option (Nat × Nat) :=
  firstSome (fun mr =>
    match mr.2 with
    | '-' :: rest2 => dayScan mr.1 rest2
    | _ => none) (monthAlts s)

/-- `datetime.strptime(s, "%Y-%m-%d")` up to (but not including) the
calendar-validity check of the `datetime` constructor. -/
def strptimeYMD (s : Key) : Option (Nat × Nat × Nat) :=
  match s with
  | y1 :: y2 :: y3 :: y4 :: '-' :: rest =>
    if isDigitCh y1 && isDigitCh y2 && isDigitCh y3 && isDigitCh y4 then
      match parseMD rest with
      | some (m, d) => some (1000 * dv y1 + 100 * dv y2 + 10 * dv y3 + dv y4, m, d)
      | none => none
    else none
  | _ => none

def isLeap (y : Nat) : Bool := (y % 4 == 0 && y % 100 != 0) || y % 400 == 0

def daysInMonth (y m : Nat) : Nat :=
  if m = 2 then (if isLeap y then 29 else 28)
  else if m = 4 ∨ m = 6 ∨ m = 9 ∨ m = 11 then 30
  else 31

structure Date where
  year : Nat
  month : Nat
  day : Nat
deriving DecidableEq, Repr

/-- The validity check done by the `datetime` constructor (the month is
already within 1..12 whenever the `%m` regex matched). -/
def validDate (y m d : Nat) : Bool :=
  (1 ≤ y && y ≤ 9999) && (1 ≤ d && d ≤ daysInMonth y m)

/-- `extract_backup_date` (source lines 53–63): take the basename, cut it
at the first underscore, parse with `strptime("%Y-%m-%d")`; any failure is
caught and becomes `none`. -/
def extract_backup_date (blob_name : Key) : Option Date :=
  match strptimeYMD ((basename blob_name).takeWhile (fun c => c != '_')) with
  | some (y, m, d) => if validDate y m d then some ⟨y, m, d⟩ else none
  | none => none

/-! ### Retention policy -/

def daysBeforeMonth (y m : Nat) : Nat :=
  (List.range (m - 1)).foldl (fun acc i => acc + daysInMonth y (i + 1)) 0

/-- Python `datetime.toordinal`: proleptic-Gregorian day number, with
0001-01-01 mapped to 1. -/
def toOrdinal (dt : Date) : Nat :=
  365 * (dt.year - 1) + (dt.year - 1) / 4 - (dt.year - 1) / 100 + (dt.year - 1) / 400
    + daysBeforeMonth dt.year dt.month + dt.day

/-- The parsed backup date as a timestamp in seconds (midnight UTC). -/
def dateSec (dt : Date) : Int := (toOrdinal dt : Int) * 86400

/-- `should_archive` (source lines 65–70).  `now_sec` is `datetime.utcnow()`
as seconds; `timedelta.days` is the floor of the difference over 86400
seconds, which is `Int.fdiv`. -/
def should_archive (backup_date : Option Date) (threshold_days : Int) (now_sec : Int) : Bool :=
  match backup_date with
  | none => false
  | some dt => decide (threshold_days ≤ Int.fdiv (now_sec - dateSec dt) 86400)

/-! ### Storage model and the transfer executor -/

/-- The two buckets.  The source bucket is listed by prefix, so it is kept
as an (ordered) association list; the target bucket is only ever written. -/
@[ext]
structure StorageState where
  source : List (Key × Nat)
  target : Key → Option Nat

/-- Outcome of the backend's `copy_blob` call: a truthy new blob whose
content at the destination is `dest_content`, a falsy return, or a raised
exception. -/
inductive CopyResult
  | ok (dest_content : Nat)
  | falsy
  | raise
deriving DecidableEq

/-- Outcome of the backend's `blob.delete()` call. -/
inductive DelResult
  | ok
  | raise
deriving DecidableEq

/-- Backend behaviour for one `move_blob` call. -/
structure BlobEnv where
  copy : CopyResult
  del : DelResult
deriving DecidableEq

/-- `source_bucket.list_blobs(prefix=pre)` (snapshot of the listing). -/
def listBlobs (st : StorageState) (pre : Key) : List (Key × Nat) :=
  st.source.filter (fun kv => strStarts pre kv.1)

def writeTarget (st : StorageState) (k : Key) (c : Nat) : StorageState :=
  { st with target := fun q => if q = k then some c else st.target q }

def deleteSource (st : StorageState) (k : Key) : StorageState :=
  { st with source := st.source.filter (fun kv => kv.1 != k) }

/-- `move_blob` (source lines 72–91).  Dry-run returns `True` without any
I/O.  Otherwise: `copy_blob`; when its return is truthy, delete the source
and return `True`; when it is falsy, return `False`; any exception during
copy or delete is caught and yields `False`. -/
def move_blob (st : StorageState) (blob_key target_key : Key) (dry_run : Bool)
    (env : BlobEnv) : Bool × StorageState :=
  if dry_run then (true, st)
  else
    match env.copy with
    | .raise => (false, st)
    | .falsy => (false, st)
    | .ok c =>
      let st1 := writeTarget st target_key c
      match env.del with
      | .raise => (false, st1)
      | .ok => (true, deleteSource st1 blob_key)

/-! ### Work enumerator (per-server processing) -/

structure DbConfig where
  source_path : Key
  target_path : Key
  file_extension : Key

/-- The destination key computed at source lines 114–117:
`blob.name.replace(source_path, target_path)`. -/
def destKey (cfg : DbConfig) (k : Key) : Key :=
  pyReplace cfg.source_path cfg.target_path k

/-- The listing prefix `f"{source_path}/{server}"` of line 97. -/
def prefOf (cfg : DbConfig) (server : Key) : Key :=
  cfg.source_path ++ '/' :: server

/-- The body of the loop at source lines 102–119, acting on
`((moved_count, processed_count), storage-state)`. -/
def serverStep (cfg : DbConfig) (threshold_days now_sec : Int) (dry_run : Bool)
    (env : Key → Nat → BlobEnv) (acc : (Nat × Nat) × StorageState) (kv : Key × Nat) :
    (Nat × Nat) × StorageState :=
  let moved := acc.1.1
  let processed := acc.1.2 + 1
  let st := acc.2
  if strEnds cfg.file_extension kv.1 then
    match extract_backup_date kv.1 with
    | none => ((moved, processed), st)
    | some dt =>
      if should_archive (some dt) threshold_days now_sec then
        let r := move_blob st kv.1 (destKey cfg kv.1) dry_run (env kv.1 kv.2)
        ((if r.1 then moved + 1 else moved, processed), r.2)
      else ((moved, processed), st)
  else ((moved, processed), st)

/-- `process_server_backups` (source lines 93–121), returning the
`(moved_count, processed_count)` pair together with the storage state
after the loop. -/
def process_server_backups (server : Key) (cfg : DbConfig) (threshold_days now_sec : Int)
    (dry_run : Bool) (env : Key → Nat → BlobEnv) (st : StorageState) :
    (Nat × Nat) × StorageState :=
  (listBlobs st (prefOf cfg server)).foldl
    (serverStep cfg threshold_days now_sec dry_run env) ((0, 0), st)

/-! ### Concurrency orchestrator

`process_backups_parallel` (source lines 123–154) submits one task per
server and aggregates `(moved, processed)` pairs in completion order; a
task that raises is caught and skipped.  Concurrency is modelled by
quantifying over the completion order. -/

/-- One iteration of the `as_completed` aggregation loop at lines 144–153:
a normally completed task adds its `(moved, processed)` pair to the totals,
a task that raised (`Except.error`) is caught, logged and skipped. -/
def pbpStep (task_result : Key → Except String (Nat × Nat)) (acc : Nat × Nat)
    (server : Key) : Nat × Nat :=
  match task_result server with
  | .ok r => (acc.1 + r.1, acc.2 + r.2)
  | .error _ => acc

/-- The aggregation loop at lines 144–153 over per-task results in
completion order (`order`); `task_result server = .error e` models a task
that raised.  Returns `total_moved` as the source does. -/
def process_backups_parallel (order : List Key)
    (task_result : Key → Except String (Nat × Nat)) : Nat :=
  (order.foldl (pbpStep task_result) ((0 : Nat), (0 : Nat))).1

/-- The moved count a task contributes to the aggregated totals. -/
def taskMoved (task_result : Key → Except String (Nat × Nat)) (s : Key) : Nat :=
  match task_result s with
  | .ok r => r.1
  | .error _ => 0

/-- One completed per-server task, with its counts folded into the totals
and its storage effects applied. -/
def groupStep (cfg : DbConfig) (threshold_days now_sec : Int) (dry_run : Bool)
    (env : Key → Nat → BlobEnv) (acc : (Nat × Nat) × StorageState) (server : Key) :
    (Nat × Nat) × StorageState :=
  ((acc.1.1 + (process_server_backups server cfg threshold_days now_sec dry_run env acc.2).1.1,
    acc.1.2 + (process_server_backups server cfg threshold_days now_sec dry_run env acc.2).1.2),
   (process_server_backups server cfg threshold_days now_sec dry_run env acc.2).2)

/-- The whole per-group run: per-server tasks executed in completion order
`order`, starting from storage state `st`. -/
def runTasks (cfg : DbConfig) (threshold_days now_sec : Int) (dry_run : Bool)
    (env : Key → Nat → BlobEnv) (order : List Key) (st : StorageState) :
    (Nat × Nat) × StorageState :=
  order.foldl (groupStep cfg threshold_days now_sec dry_run env) ((0, 0), st)

/-! ## Helper characterisations -/

/-- The per-object filter chain of lines 104–112: right extension, a
parseable date, and old enough. -/
def passes (cfg : DbConfig) (t now : Int) (k : Key) : Bool :=
  strEnds cfg.file_extension k &&
    match extract_backup_date k with
    | none => false
    | some dt => should_archive (some dt) t now

/-- Whether one `move_blob` call reports success, as a function of the
dry-run flag and the backend behaviour alone. -/
def moveOk (dry : Bool) (e : BlobEnv) : Bool :=
  dry || ((match e.copy with | .ok _ => true | _ => false) && e.del == DelResult.ok)

lemma move_blob_fst (st : StorageState) (k tk : Key) (dry : Bool) (e : BlobEnv) :
    (move_blob st k tk dry e).1 = moveOk dry e := by
  obtain ⟨c, d⟩ := e
  cases dry <;> cases c <;> cases d <;> rfl

lemma serverStep_eq (cfg : DbConfig) (t now : Int) (dry : Bool) (env : Key → Nat → BlobEnv)
    (acc : (Nat × Nat) × StorageState) (kv : Key × Nat) :
    serverStep cfg t now dry env acc kv
      = ((if passes cfg t now kv.1 && moveOk dry (env kv.1 kv.2) then acc.1.1 + 1 else acc.1.1,
          acc.1.2 + 1),
         if passes cfg t now kv.1
         then (move_blob acc.2 kv.1 (destKey cfg kv.1) dry (env kv.1 kv.2)).2
         else acc.2) := by
  unfold serverStep passes
  rcases hE : strEnds cfg.file_extension kv.1
  · simp [hE]
  · rcases hD : extract_backup_date kv.1 with _ | dt
    · simp [hD]
    · rcases hA : should_archive (some dt) t now
      · simp [hD, hA]
      · simp [hD, hA, move_blob_fst]

/-- The counts of the per-server loop as a pure function of the listed
blobs (the storage state never feeds back into the counters). -/
def countsAfter (cfg : DbConfig) (t now : Int) (dry : Bool) (env : Key → Nat → BlobEnv)
    (acc : Nat × Nat) : List (Key × Nat) → Nat × Nat
  | [] => acc
  | kv :: rest =>
    countsAfter cfg t now dry env
      (if passes cfg t now kv.1 && moveOk dry (env kv.1 kv.2) then acc.1 + 1 else acc.1,
       acc.2 + 1) rest

lemma serverFold_counts (cfg : DbConfig) (t now : Int) (dry : Bool)
    (env : Key → Nat → BlobEnv) (blobs : List (Key × Nat)) (acc : (Nat × Nat) × StorageState) :
    (blobs.foldl (serverStep cfg t now dry env) acc).1
      = countsAfter cfg t now dry env acc.1 blobs := by
  induction blobs generalizing acc with
  | nil => rfl
  | cons kv rest ih =>
    rw [List.foldl_cons, ih, serverStep_eq]
    rfl

lemma countsAfter_bounds (cfg : DbConfig) (t now : Int) (dry : Bool)
    (env : Key → Nat → BlobEnv) (blobs : List (Key × Nat)) (acc : Nat × Nat) :
    (countsAfter cfg t now dry env acc blobs).2 = acc.2 + blobs.length
    ∧ (countsAfter cfg t now dry env acc blobs).1 ≤ acc.1 + blobs.length := by
  induction blobs generalizing acc with
  | nil => simp [countsAfter]
  | cons kv rest ih =>
    obtain ⟨h1, h2⟩ := ih
      ((if passes cfg t now kv.1 && moveOk dry (env kv.1 kv.2) then acc.1 + 1 else acc.1),
       acc.2 + 1)
    constructor
    · rw [countsAfter, h1]; simp; omega
    · rw [countsAfter]
      refine le_trans h2 ?_
      split <;> first
        | (simp; omega)
        | simp

/-! ## Claim C9 -/

/-- Claim C9: `process_server_backups` returns `(moved_count,
processed_count)` where `processed_count` is the number of objects listed
under the prefix `{source_path}/{server}` — wrong-extension and undated
objects included — and `moved_count ≤ processed_count`. -/
theorem c9_server_counts (server : Key) (cfg : DbConfig) (t now : Int) (dry : Bool)
    (env : Key → Nat → BlobEnv) (st : StorageState) :
    (process_server_backups server cfg t now dry env st).1.2
      = (listBlobs st (prefOf cfg server)).length
    ∧ (process_server_backups server cfg t now dry env st).1.1
      ≤ (process_server_backups server cfg t now dry env st).1.2 := by
  unfold process_server_backups
  rw [serverFold_counts]
  obtain ⟨h1, h2⟩ :=
    countsAfter_bounds cfg t now dry env (listBlobs st (prefOf cfg server)) (0, 0)
  constructor
  · simpa using h1
  · rw [h1]; simpa using h2

/-! ## Claim C4 -/

/-- Claim C4: eligibility is false for an absent date, and otherwise holds
iff the floor-of-days difference `(now − d).days` is at least the
threshold; an object exactly `t` days old is eligible, one `t − 1` days
old is not; the decision is a pure function of `(d, t, now)`. -/
theorem c4_retention_policy (dt : Date) (t now : Int) :
    should_archive none t now = false
    ∧ (should_archive (some dt) t now = true ↔ t ≤ Int.fdiv (now - dateSec dt) 86400)
    ∧ should_archive (some dt) t (dateSec dt + t * 86400) = true
    ∧ should_archive (some dt) t (dateSec dt + (t - 1) * 86400) = false := by
  refine ⟨rfl, by simp [should_archive], ?_, ?_⟩
  · have h : dateSec dt + t * 86400 - dateSec dt = t * 86400 := by omega
    simp only [should_archive, h, Int.mul_fdiv_cancel _ (by norm_num : (86400 : Int) ≠ 0),
      decide_eq_true_eq, le_refl]
  · have h : dateSec dt + (t - 1) * 86400 - dateSec dt = (t - 1) * 86400 := by omega
    simp only [should_archive, h, Int.mul_fdiv_cancel _ (by norm_num : (86400 : Int) ≠ 0),
      decide_eq_false_iff_not]
    omega

/-- Witness for `c4_retention_policy` at a concrete date and threshold. -/
theorem c4_retention_policy_witness :
    should_archive none 30 (dateSec ⟨2024, 3, 1⟩) = false
    ∧ (should_archive (some ⟨2024, 1, 15⟩) 30 (dateSec ⟨2024, 3, 1⟩) = true
        ↔ (30 : Int) ≤ Int.fdiv (dateSec ⟨2024, 3, 1⟩ - dateSec ⟨2024, 1, 15⟩) 86400)
    ∧ should_archive (some ⟨2024, 1, 15⟩) 30 (dateSec ⟨2024, 1, 15⟩ + 30 * 86400) = true
    ∧ should_archive (some ⟨2024, 1, 15⟩) 30 (dateSec ⟨2024, 1, 15⟩ + (30 - 1) * 86400)
      = false :=
  c4_retention_policy ⟨2024, 1, 15⟩ 30 (dateSec ⟨2024, 3, 1⟩)

/-! ## Claim C5 -/

lemma serverFold_dry_state (cfg : DbConfig) (t now : Int) (env : Key → Nat → BlobEnv)
    (blobs : List (Key × Nat)) (acc : (Nat × Nat) × StorageState) :
    (blobs.foldl (serverStep cfg t now true env) acc).2 = acc.2 := by
  induction blobs generalizing acc with
  | nil => rfl
  | cons kv rest ih =>
    rw [List.foldl_cons, ih, serverStep_eq]
    simp [move_blob]

lemma process_server_dry_state (server : Key) (cfg : DbConfig) (t now : Int)
    (env : Key → Nat → BlobEnv) (st : StorageState) :
    (process_server_backups server cfg t now true env st).2 = st :=
  serverFold_dry_state cfg t now env _ _

lemma runTasks_dry_state (cfg : DbConfig) (t now : Int) (env : Key → Nat → BlobEnv)
    (order : List Key) (acc : (Nat × Nat) × StorageState) :
    (order.foldl (groupStep cfg t now true env) acc).2 = acc.2 := by
  induction order generalizing acc with
  | nil => rfl
  | cons s rest ih =>
    rw [List.foldl_cons, ih]
    exact process_server_dry_state s cfg t now env acc.2

/-- Claim C5: in dry-run, `move_blob` performs no copy and no delete (the
storage state is returned unchanged) and reports `True`; a dry run leaves
the storage state intact at every level, so a second dry run over the same
state reports identical counts. -/
theorem c5_dry_run (st : StorageState) (k tk : Key) (e : BlobEnv) (server : Key)
    (cfg : DbConfig) (t now : Int) (env : Key → Nat → BlobEnv) (servers : List Key) :
    move_blob st k tk true e = (true, st)
    ∧ (process_server_backups server cfg t now true env st).2 = st
    ∧ process_server_backups server cfg t now true env
        (process_server_backups server cfg t now true env st).2
      = process_server_backups server cfg t now true env st
    ∧ (runTasks cfg t now true env servers st).2 = st
    ∧ runTasks cfg t now true env servers (runTasks cfg t now true env servers st).2
      = runTasks cfg t now true env servers st := by
  refine ⟨rfl, process_server_dry_state .., ?_, runTasks_dry_state .., ?_⟩
  · rw [process_server_dry_state]
  · rw [show (runTasks cfg t now true env servers st).2 = st from runTasks_dry_state ..]

/-! ## Claim C6 -/

/-- Claim C6: every storage error during the live move — a raised copy, a
falsy copy result, or a raised delete — is caught inside `move_blob`,
which returns `Failed` (`false`); `move_blob` is a total function, so no
exception propagates. -/
theorem c6_transfer_errors_caught (st : StorageState) (k tk : Key) (c : Nat) (d : DelResult) :
    move_blob st k tk false ⟨CopyResult.raise, d⟩ = (false, st)
    ∧ move_blob st k tk false ⟨CopyResult.falsy, d⟩ = (false, st)
    ∧ move_blob st k tk false ⟨CopyResult.ok c, DelResult.raise⟩ = (false, writeTarget st tk c) :=
  ⟨rfl, rfl, rfl⟩

/-! ## Claim C10 -/

/-- Claim C10: when the copy succeeds but the delete raises, `move_blob`
returns `Failed`, the object remains in the source bucket and its copy is
present in the target bucket, and the per-server loop does not count it as
moved. -/
theorem c10_delete_failure (st : StorageState) (k tk : Key) (v c : Nat) (cfg : DbConfig)
    (t now : Int) (m p : Nat) :
    move_blob st k tk false ⟨CopyResult.ok c, DelResult.raise⟩ = (false, writeTarget st tk c)
    ∧ (writeTarget st tk c).source = st.source
    ∧ (writeTarget st tk c).target tk = some c
    ∧ (serverStep cfg t now false (fun _ _ => ⟨CopyResult.ok c, DelResult.raise⟩) ((m, p), st)
        (k, v)).1.1 = m := by
  refine ⟨rfl, rfl, by simp [writeTarget], ?_⟩
  rw [serverStep_eq]
  simp [moveOk]

/-! ## Claim C7 -/

lemma pbp_fold (task_result : Key → Except String (Nat × Nat)) (order : List Key)
    (acc : Nat × Nat) :
    order.foldl (pbpStep task_result) acc
      = (acc.1 + (order.map (taskMoved task_result)).sum,
         acc.2 + (order.map (fun s =>
           match task_result s with | .ok r => r.2 | .error _ => 0)).sum) := by
  induction order generalizing acc with
  | nil => simp
  | cons s rest ih =>
    rw [List.foldl_cons, ih]
    rcases h : task_result s with e | r <;>
      first
      | (simp [pbpStep, taskMoved, h, Prod.ext_iff]; omega)
      | simp [pbpStep, taskMoved, h, Prod.ext_iff]

/-- Claim C7: a per-server task that raises is caught at the orchestrator
boundary and contributes zero to the aggregated totals, the remaining
tasks are still aggregated, and the function returns the moved counts
summed over the tasks that completed normally. -/
theorem c7_task_failure_isolated (order : List Key)
    (task_result : Key → Except String (Nat × Nat)) (s : Key) (rest : List Key)
    (err : String) :
    process_backups_parallel order task_result
      = (order.map (taskMoved task_result)).sum
    ∧ process_backups_parallel (s :: rest) task_result
      = taskMoved task_result s + process_backups_parallel rest task_result
    ∧ (task_result s = .error err → taskMoved task_result s = 0) := by
  refine ⟨?_, ?_, ?_⟩
  · unfold process_backups_parallel
    rw [pbp_fold]
    simp
  · unfold process_backups_parallel
    rw [pbp_fold, pbp_fold]
    simp
  · intro h
    simp [taskMoved, h]

/-- Witness for `c7_task_failure_isolated`: one healthy task and one task
that raised, at a concrete result table. -/
theorem c7_task_failure_isolated_witness :
    process_backups_parallel ["g".data, "bad".data]
        (fun s => if s = "bad".data then Except.error "boom" else Except.ok (1, 2))
      = (["g".data, "bad".data].map (taskMoved
          (fun s => if s = "bad".data then Except.error "boom" else Except.ok (1, 2)))).sum
    ∧ process_backups_parallel ("bad".data :: ["g".data])
        (fun s => if s = "bad".data then Except.error "boom" else Except.ok (1, 2))
      = taskMoved (fun s => if s = "bad".data then Except.error "boom" else Except.ok (1, 2))
          "bad".data
        + process_backups_parallel ["g".data]
            (fun s => if s = "bad".data then Except.error "boom" else Except.ok (1, 2))
    ∧ taskMoved (fun s => if s = "bad".data then Except.error "boom" else Except.ok (1, 2))
        "bad".data = 0 := by
  obtain ⟨h1, h2, h3⟩ := c7_task_failure_isolated ["g".data, "bad".data]
    (fun s => if s = "bad".data then Except.error "boom" else Except.ok (1, 2))
    "bad".data ["g".data] "boom"
  exact ⟨h1, h2, h3 rfl⟩

/-! ## Claim C2 -/

lemma strStarts_append (p t : Key) : strStarts p (p ++ t) = true := by
  induction p with
  | nil => rfl
  | cons a p ih => simp [strStarts, ih]

lemma strStarts_drop (p k : Key) (h : strStarts p k = true) : k = p ++ k.drop p.length := by
  induction p generalizing k with
  | nil => simp
  | cons a p ih =>
    cases k with
    | nil => simp [strStarts] at h
    | cons b k =>
      rw [strStarts, Bool.and_eq_true, beq_iff_eq] at h
      obtain ⟨rfl, h2⟩ := h
      simpa using ih k h2

lemma hasOcc_nil_old (s : Key) : hasOcc [] s = true := by
  cases s <;> simp [hasOcc, strStarts, List.isEmpty]

lemma isEmpty_false_of_ne_nil (old : Key) (h : old ≠ []) : old.isEmpty = false := by
  cases old with
  | nil => exact absurd rfl h
  | cons o os => rfl

lemma pyReplace_no_occ (old new s : Key) (h : hasOcc old s = false) :
    pyReplace old new s = s := by
  have hold : old ≠ [] := by
    intro hnil
    rw [hnil, hasOcc_nil_old] at h
    exact absurd h (by simp)
  rw [pyReplace, isEmpty_false_of_ne_nil old hold]
  simp only [Bool.false_eq_true, if_false]
  induction s with
  | nil => rfl
  | cons c rest ih =>
    rw [hasOcc, Bool.or_eq_false_iff] at h
    obtain ⟨h1, h2⟩ := h
    rw [pyReplaceGo, h1]
    simp only [Bool.false_eq_true, if_false]
    rw [ih h2]

lemma pyReplaceGo_skip (old new l t : Key) :
    pyReplaceGo old new l.length (l ++ t) = pyReplaceGo old new 0 t := by
  induction l with
  | nil => rfl
  | cons c l ih => exact ih

lemma pyReplace_head (old new t : Key) (h : old ≠ []) :
    pyReplace old new (old ++ t) = new ++ pyReplace old new t := by
  rw [pyReplace, pyReplace, isEmpty_false_of_ne_nil old h]
  simp only [Bool.false_eq_true, if_false]
  cases old with
  | nil => exact absurd rfl h
  | cons o os =>
    rw [show (o :: os) ++ t = o :: (os ++ t) from rfl, pyReplaceGo,
      show strStarts (o :: os) (o :: (os ++ t)) = true from strStarts_append (o :: os) t]
    simp only [if_true]
    rw [show (o :: os).length - 1 = os.length from by simp, pyReplaceGo_skip]

/-- Claim C2 counterexample: line 114 computes the destination with
`str.replace`, which substitutes every occurrence of `source_path`, not
just the leading one, and leaves keys without an occurrence unchanged
rather than prefixing `target_path`. -/
theorem c2_claim_counterexample :
    destKey ⟨"backups/pg".data, "archive/pg".data, ".sql.gz".data⟩
        "backups/pg/db1/backups/pg_dump.sql.gz".data
      = "archive/pg/db1/archive/pg_dump.sql.gz".data
    ∧ "archive/pg/db1/archive/pg_dump.sql.gz".data
      ≠ "archive/pg".data
          ++ ("backups/pg/db1/backups/pg_dump.sql.gz".data).drop ("backups/pg".data).length
    ∧ destKey ⟨"backups/pg".data, "archive/pg".data, ".sql.gz".data⟩ "notes.txt".data
      = "notes.txt".data
    ∧ "notes.txt".data ≠ "archive/pg".data ++ "notes.txt".data := by
  refine ⟨by decide, by decide, by decide, by decide⟩

/-- Claim C2 (amended): the destination key is the object key with every
occurrence of `source_path` substituted by `target_path`.  When
`source_path` is non-empty, leads the key, and does not occur again after
that leading occurrence, this equals `target_path ++ key[len(source_path):]`;
a key in which `source_path` does not occur at all is returned unchanged
(not prefixed with `target_path`). -/
theorem c2_path_mapping (cfg : DbConfig) (k : Key) :
    (cfg.source_path ≠ [] → strStarts cfg.source_path k = true →
       hasOcc cfg.source_path (k.drop cfg.source_path.length) = false →
       destKey cfg k = cfg.target_path ++ k.drop cfg.source_path.length)
    ∧ (hasOcc cfg.source_path k = false → destKey cfg k = k) := by
  constructor
  · intro h1 h2 h3
    unfold destKey
    conv_lhs => rw [strStarts_drop _ _ h2]
    rw [pyReplace_head _ _ _ h1, pyReplace_no_occ _ _ _ h3]
  · intro h
    exact pyReplace_no_occ _ _ _ h

/-- Witness for `c2_path_mapping` at a concrete configuration and keys. -/
theorem c2_path_mapping_witness :
    destKey ⟨"backups/pg".data, "archive/pg".data, ".sql.gz".data⟩
        "backups/pg/db1/2024-01-15_dump.sql.gz".data
      = "archive/pg".data
          ++ ("backups/pg/db1/2024-01-15_dump.sql.gz".data).drop ("backups/pg".data).length
    ∧ destKey ⟨"backups/pg".data, "archive/pg".data, ".sql.gz".data⟩ "notes.txt".data
      = "notes.txt".data := by
  constructor
  · exact (c2_path_mapping ⟨"backups/pg".data, "archive/pg".data, ".sql.gz".data⟩
      "backups/pg/db1/2024-01-15_dump.sql.gz".data).1 (by decide) (by decide) (by decide)
  · exact (c2_path_mapping ⟨"backups/pg".data, "archive/pg".data, ".sql.gz".data⟩
      "notes.txt".data).2 (by decide)

/-! ## Claim C3 -/

/-- The character for the digit `n % 10`. -/
def dchar (n : Nat) : Char :=
  match n % 10 with
  | 0 => '0' | 1 => '1' | 2 => '2' | 3 => '3' | 4 => '4'
  | 5 => '5' | 6 => '6' | 7 => '7' | 8 => '8' | _ => '9'

/-- Two-digit zero-padded rendering (of `n < 100`). -/
def pad2 (n : Nat) : Key := [dchar (n / 10), dchar (n % 10)]

/-- Four-digit zero-padded rendering (of `n < 10000`). -/
def pad4 (n : Nat) : Key := [dchar (n / 1000), dchar (n / 100), dchar (n / 10), dchar n]

/-- The fixed-width rendering `YYYY-MM-DD` of a date. -/
def fixedRepr (y m d : Nat) : Key := pad4 y ++ '-' :: (pad2 m ++ '-' :: pad2 d)

/-- Modelled from the spec's words (for stating C3 as written): the
basename's pre-underscore part is in fixed 4-2-2-digit `YYYY-MM-DD` form
and names a valid calendar date. -/
def fixedDateForm (k : Key) : Option Date :=
  match (basename k).takeWhile (fun c => c != '_') with
  | [a, b, c, e, u1, f, g, u2, i, j] =>
    if (u1 = '-' ∧ u2 = '-')
        ∧ (isDigitCh a ∧ isDigitCh b ∧ isDigitCh c ∧ isDigitCh e
            ∧ isDigitCh f ∧ isDigitCh g ∧ isDigitCh i ∧ isDigitCh j) then
      if validDate (1000 * dv a + 100 * dv b + 10 * dv c + dv e)
            (10 * dv f + dv g) (10 * dv i + dv j)
          ∧ 1 ≤ 10 * dv f + dv g ∧ 10 * dv f + dv g ≤ 12 then
        some ⟨1000 * dv a + 100 * dv b + 10 * dv c + dv e,
              10 * dv f + dv g, 10 * dv i + dv j⟩
      else none
    else none
  | _ => none

lemma dchar_toNat (n : Nat) : (dchar n).toNat = 48 + n % 10 := by
  unfold dchar
  set k := n % 10 with hk
  have h : k < 10 := by rw [hk]; exact Nat.mod_lt _ (by norm_num)
  interval_cases k <;> rfl

lemma dv_dchar (n : Nat) : dv (dchar n) = n % 10 := by
  simp [dv, dchar_toNat]

lemma isDigitCh_dchar (n : Nat) : isDigitCh (dchar n) = true := by
  simp only [isDigitCh, dchar_toNat, Bool.and_eq_true, decide_eq_true_eq]
  omega

lemma dchar_ne (n : Nat) : dchar n ≠ '_' ∧ dchar n ≠ '/' := by
  unfold dchar
  set k := n % 10 with hk
  have h : k < 10 := by rw [hk]; exact Nat.mod_lt _ (by norm_num)
  interval_cases k <;> exact ⟨by decide, by decide⟩

lemma takeWhile_all (p : Char → Bool) (l : Key) (h : ∀ c ∈ l, p c = true) :
    l.takeWhile p = l := by
  induction l with
  | nil => rfl
  | cons c rest ih =>
    have hc := h c (List.mem_cons_self c rest)
    simp [List.takeWhile_cons, hc, ih fun x hx => h x (List.mem_cons_of_mem c hx)]

lemma takeWhile_append_stop (p : Char → Bool) (l1 l2 : Key) (x : Char) (hx : p x = false) :
    (l1 ++ x :: l2).takeWhile p = l1.takeWhile p := by
  induction l1 with
  | nil => simp [List.takeWhile_cons, hx]
  | cons c rest ih =>
    rcases hc : p c <;> simp [List.takeWhile_cons, hc, ih]

lemma basename_of_no_slash (f : Key) (h : ∀ c ∈ f, c ≠ '/') : basename f = f := by
  unfold basename
  rw [takeWhile_all]
  · exact f.reverse_reverse
  · intro c hc
    have hm : c ∈ f := by simpa using hc
    simpa using h c hm

lemma basename_append (xs f : Key) : basename (xs ++ '/' :: f) = basename f := by
  unfold basename
  rw [show (xs ++ '/' :: f).reverse = f.reverse ++ '/' :: xs.reverse by simp,
    takeWhile_append_stop _ _ _ _ (by decide)]

lemma fixedRepr_chars (y m d : Nat) : ∀ c ∈ fixedRepr y m d, c ≠ '/' ∧ c ≠ '_' := by
  intro c hc
  rw [show fixedRepr y m d
      = [dchar (y / 1000), dchar (y / 100), dchar (y / 10), dchar y, '-',
         dchar (m / 10), dchar (m % 10), '-', dchar (d / 10), dchar (d % 10)] from rfl] at hc
  simp only [List.mem_cons, List.not_mem_nil, or_false] at hc
  rcases hc with rfl | rfl | rfl | rfl | rfl | rfl | rfl | rfl | rfl | rfl <;>
    first
    | exact ⟨(dchar_ne _).2, (dchar_ne _).1⟩
    | exact ⟨by decide, by decide⟩

lemma parseMD_pads (m d : Nat) (hm1 : 1 ≤ m) (hm2 : m ≤ 12) (hd1 : 1 ≤ d) (hd2 : d ≤ 31) :
    parseMD (pad2 m ++ '-' :: pad2 d) = some (m, d) := by
  interval_cases m <;> interval_cases d <;> rfl

lemma strptimeYMD_fixedRepr (y m d : Nat) (hy2 : y ≤ 9999)
    (hm1 : 1 ≤ m) (hm2 : m ≤ 12) (hd1 : 1 ≤ d) (hd2 : d ≤ 31) :
    strptimeYMD (fixedRepr y m d) = some (y, m, d) := by
  have hyv : 1000 * dv (dchar (y / 1000)) + 100 * dv (dchar (y / 100))
      + 10 * dv (dchar (y / 10)) + dv (dchar y) = y := by
    simp only [dv_dchar]
    omega
  unfold fixedRepr pad4
  rw [show ([dchar (y / 1000), dchar (y / 100), dchar (y / 10), dchar y]
        ++ '-' :: (pad2 m ++ '-' :: pad2 d))
      = dchar (y / 1000) :: dchar (y / 100) :: dchar (y / 10) :: dchar y
        :: '-' :: (pad2 m ++ '-' :: pad2 d) from rfl]
  rw [strptimeYMD]
  simp only [isDigitCh_dchar, Bool.and_self, if_true]
  rw [parseMD_pads m d hm1 hm2 hd1 hd2, hyv]

lemma daysInMonth_le (y m : Nat) : daysInMonth y m ≤ 31 := by
  unfold daysInMonth
  split
  · split <;> norm_num
  · split <;> norm_num

/-- Claim C3 counterexample: the basename `2024-3-5_backup.sql` is not in
fixed `YYYY-MM-DD` form (month and day are not two digits), yet the code
returns the date 2024-03-05 rather than `None`, because CPython's
`strptime` `%m`/`%d` accept one- or two-digit values. -/
theorem c3_claim_counterexample :
    fixedDateForm ("2024-3-5_backup.sql".data) = none
    ∧ extract_backup_date ("2024-3-5_backup.sql".data)
      = some ⟨2024, 3, 5⟩ := by
  exact ⟨by decide, by decide⟩

/-- Claim C3 (amended): for every key whose basename starts with a valid
fixed-form `YYYY-MM-DD_` date, `extract_backup_date` returns exactly that
date; it never raises (it is a total function) and every date it returns
is a valid calendar date — but it also accepts one- or two-digit months
and days (strptime's `%m`/`%d` flexibility), so "not fixed-form" does not
imply an absent result. -/
theorem c3_extract_date :
    (∀ (dir rest : Key) (y m d : Nat), 1 ≤ y → y ≤ 9999 → 1 ≤ m → m ≤ 12 →
      1 ≤ d → d ≤ daysInMonth y m → (∀ c ∈ rest, c ≠ '/') →
      extract_backup_date (dir ++ '/' :: (fixedRepr y m d ++ '_' :: rest))
        = some ⟨y, m, d⟩)
    ∧ (∀ (k : Key) (y' m' d' : Nat), extract_backup_date k = some ⟨y', m', d'⟩ →
        validDate y' m' d' = true) := by
  constructor
  · intro dir rest y m d hy1 hy2 hm1 hm2 hd1 hd2 hrest
    have hnoslash : ∀ c ∈ fixedRepr y m d ++ '_' :: rest, c ≠ '/' := by
      intro c hc
      rcases List.mem_append.1 hc with hc | hc
      · exact (fixedRepr_chars y m d c hc).1
      · rcases List.mem_cons.1 hc with rfl | hc
        · decide
        · exact hrest c hc
    have hno_us : ∀ c ∈ fixedRepr y m d, (c != '_') = true := by
      intro c hc
      simpa using (fixedRepr_chars y m d c hc).2
    have hv : validDate y m d = true := by
      simp only [validDate, Bool.and_eq_true, decide_eq_true_eq]
      exact ⟨⟨hy1, hy2⟩, hd1, hd2⟩
    unfold extract_backup_date
    rw [basename_append, basename_of_no_slash _ hnoslash,
      takeWhile_append_stop _ _ _ _ (by decide), takeWhile_all _ _ hno_us,
      strptimeYMD_fixedRepr y m d hy2 hm1 hm2 hd1 (le_trans hd2 (daysInMonth_le y m))]
    simp only [hv, if_true]
  · intro k y' m' d' h
    unfold extract_backup_date at h
    rcases hp : strptimeYMD ((basename k).takeWhile (fun c => c != '_')) with _ | ymd
    · rw [hp] at h
      exact absurd h (by simp)
    · obtain ⟨yy, mm, dd⟩ := ymd
      rw [hp] at h
      simp only at h
      rcases hv : validDate yy mm dd
      · rw [hv] at h
        simp at h
      · rw [hv] at h
        simp only [if_true, Option.some.injEq, Date.mk.injEq] at h
        obtain ⟨rfl, rfl, rfl⟩ := h
        exact hv

/-- Witness for `c3_extract_date` at a concrete key. -/
theorem c3_extract_date_witness :
    extract_backup_date ("backups/pg/db1".data
        ++ '/' :: (fixedRepr 2024 1 15 ++ '_' :: "dump.sql.gz".data))
      = some ⟨2024, 1, 15⟩
    ∧ validDate 2024 2 29 = true := by
  constructor
  · exact c3_extract_date.1 "backups/pg/db1".data "dump.sql.gz".data 2024 1 15
      (by decide) (by decide) (by decide) (by decide) (by decide) (by decide) (by decide)
  · exact c3_extract_date.2 ("2024-02-29_x".data) 2024 2 29 (by decide)

/-! ## Claim C1 -/

/-- Claim C1 counterexample: the live path of `move_blob` performs no
checksum comparison and no existence read-back of the destination.  When
the backend reports a successful copy whose destination content (7)
differs from the source content (5) — a checksum mismatch — the code
still deletes the source and reports `Moved`, where the claim requires
the source to survive and the outcome to be `Failed`. -/
theorem c1_claim_counterexample :
    (move_blob ⟨[(['a'], 5)], fun _ => none⟩ ['a'] ['t'] false
        ⟨CopyResult.ok 7, DelResult.ok⟩).1 = true
    ∧ (move_blob ⟨[(['a'], 5)], fun _ => none⟩ ['a'] ['t'] false
        ⟨CopyResult.ok 7, DelResult.ok⟩).2.source = []
    ∧ (move_blob ⟨[(['a'], 5)], fun _ => none⟩ ['a'] ['t'] false
        ⟨CopyResult.ok 7, DelResult.ok⟩).2.target ['t'] = some 7
    ∧ (7 : Nat) ≠ 5 :=
  ⟨rfl, by decide, by decide, by decide⟩

/-- Claim C1 (amended): in a live run, `move_blob` deletes the source iff
the copy call returned a truthy new blob and the delete succeeded, and it
then reports `Moved`; no checksum comparison is performed, so the source
is deleted even when the copied content differs from the source.  If the
copy raises or returns a falsy result the storage is unchanged and the
outcome is `Failed`; if the delete raises, the source survives (with the
destination already written) and the outcome is `Failed`. -/
theorem c1_source_deletion_gating (st : StorageState) (k tk : Key) (e : BlobEnv) :
    ((move_blob st k tk false e).2.source ≠ st.source →
      (∃ c, e.copy = CopyResult.ok c) ∧ e.del = DelResult.ok
        ∧ (move_blob st k tk false e).1 = true)
    ∧ (e.copy = CopyResult.raise → move_blob st k tk false e = (false, st))
    ∧ (e.copy = CopyResult.falsy → move_blob st k tk false e = (false, st))
    ∧ (∀ c, e.copy = CopyResult.ok c → e.del = DelResult.raise →
        move_blob st k tk false e = (false, writeTarget st tk c)
          ∧ (writeTarget st tk c).source = st.source)
    ∧ (∀ c, e.copy = CopyResult.ok c → e.del = DelResult.ok →
        move_blob st k tk false e = (true, deleteSource (writeTarget st tk c) k)) := by
  obtain ⟨c, d⟩ := e
  refine ⟨?_, ?_, ?_, ?_, ?_⟩
  · intro hne
    cases c with
    | raise => exact absurd rfl hne
    | falsy => exact absurd rfl hne
    | ok cc =>
      cases d with
      | raise => exact absurd rfl hne
      | ok => exact ⟨⟨cc, rfl⟩, rfl, rfl⟩
  · intro hc
    cases hc
    rfl
  · intro hc
    cases hc
    rfl
  · intro cc hc hd
    cases hc
    cases hd
    exact ⟨rfl, rfl⟩
  · intro cc hc hd
    cases hc
    cases hd
    rfl

/-- Witness for `c1_source_deletion_gating`, exercising every arm of the
gating at concrete states and environments. -/
theorem c1_source_deletion_gating_witness :
    ((∃ cc, (⟨CopyResult.ok 7, DelResult.ok⟩ : BlobEnv).copy = CopyResult.ok cc)
      ∧ (⟨CopyResult.ok 7, DelResult.ok⟩ : BlobEnv).del = DelResult.ok
      ∧ (move_blob ⟨[(['a'], 5)], fun _ => none⟩ ['a'] ['t'] false
          ⟨CopyResult.ok 7, DelResult.ok⟩).1 = true)
    ∧ move_blob ⟨[(['a'], 5)], fun _ => none⟩ ['a'] ['t'] false
        ⟨CopyResult.raise, DelResult.ok⟩
      = (false, ⟨[(['a'], 5)], fun _ => none⟩)
    ∧ move_blob ⟨[(['a'], 5)], fun _ => none⟩ ['a'] ['t'] false
        ⟨CopyResult.falsy, DelResult.ok⟩
      = (false, ⟨[(['a'], 5)], fun _ => none⟩)
    ∧ move_blob ⟨[(['a'], 5)], fun _ => none⟩ ['a'] ['t'] false
        ⟨CopyResult.ok 7, DelResult.raise⟩
      = (false, writeTarget ⟨[(['a'], 5)], fun _ => none⟩ ['t'] 7)
    ∧ move_blob ⟨[(['a'], 5)], fun _ => none⟩ ['a'] ['t'] false
        ⟨CopyResult.ok 7, DelResult.ok⟩
      = (true, deleteSource (writeTarget ⟨[(['a'], 5)], fun _ => none⟩ ['t'] 7) ['a']) := by
  refine ⟨?_, ?_, ?_, ?_, ?_⟩
  · exact (c1_source_deletion_gating ⟨[(['a'], 5)], fun _ => none⟩ ['a'] ['t']
      ⟨CopyResult.ok 7, DelResult.ok⟩).1 (by decide)
  · exact (c1_source_deletion_gating ⟨[(['a'], 5)], fun _ => none⟩ ['a'] ['t']
      ⟨CopyResult.raise, DelResult.ok⟩).2.1 rfl
  · exact (c1_source_deletion_gating ⟨[(['a'], 5)], fun _ => none⟩ ['a'] ['t']
      ⟨CopyResult.falsy, DelResult.ok⟩).2.2.1 rfl
  · exact ((c1_source_deletion_gating ⟨[(['a'], 5)], fun _ => none⟩ ['a'] ['t']
      ⟨CopyResult.ok 7, DelResult.raise⟩).2.2.2.1 7 rfl rfl).1
  · exact (c1_source_deletion_gating ⟨[(['a'], 5)], fun _ => none⟩ ['a'] ['t']
      ⟨CopyResult.ok 7, DelResult.ok⟩).2.2.2.2 7 rfl rfl

/-! ## Claim C8

The storage effect of one per-server task is decomposed into a list of
per-object move operations (its "plan"), computed from the task's listing.
Tasks over prefix-incomparable servers have disjoint listings, their plans
act on disjoint source keys, and — under the configuration assumption that
distinct source keys map to distinct destination keys — their effects
commute, so the run's totals and final state do not depend on the order in
which tasks complete. -/

structure MoveOp where
  key : Key
  tk : Key
  env : BlobEnv

/-- The storage effect of one attempted move. -/
def applyOp (dry : Bool) (st : StorageState) (op : MoveOp) : StorageState :=
  (move_blob st op.key op.tk dry op.env).2

def applyMoves (dry : Bool) (st : StorageState) (P : List MoveOp) : StorageState :=
  P.foldl (applyOp dry) st

/-- The move operations a task performs, given its listing. -/
def movePlan (cfg : DbConfig) (t now : Int) (env : Key → Nat → BlobEnv)
    (blobs : List (Key × Nat)) : List MoveOp :=
  blobs.filterMap (fun kv =>
    if passes cfg t now kv.1 then some ⟨kv.1, destKey cfg kv.1, env kv.1 kv.2⟩ else none)

lemma serverFold_state (cfg : DbConfig) (t now : Int) (dry : Bool)
    (env : Key → Nat → BlobEnv) (blobs : List (Key × Nat)) :
    ∀ acc : (Nat × Nat) × StorageState,
    (blobs.foldl (serverStep cfg t now dry env) acc).2
      = applyMoves dry acc.2 (movePlan cfg t now env blobs) := by
  induction blobs with
  | nil => intro acc; rfl
  | cons kv rest ih =>
    intro acc
    rw [List.foldl_cons, ih (serverStep cfg t now dry env acc kv), serverStep_eq]
    unfold movePlan
    rw [List.filterMap_cons]
    rcases hp : passes cfg t now kv.1
    · simp only [hp, Bool.false_eq_true, if_false]
    · simp only [hp, if_true]
      rfl

lemma process_server_char (server : Key) (cfg : DbConfig) (t now : Int) (dry : Bool)
    (env : Key → Nat → BlobEnv) (st : StorageState) :
    process_server_backups server cfg t now dry env st
      = (countsAfter cfg t now dry env (0, 0) (listBlobs st (prefOf cfg server)),
         applyMoves dry st (movePlan cfg t now env (listBlobs st (prefOf cfg server)))) := by
  unfold process_server_backups
  exact Prod.ext (serverFold_counts cfg t now dry env _ _) (serverFold_state cfg t now dry env _ _)

lemma mem_listBlobs (st : StorageState) (pre : Key) (kv : Key × Nat)
    (h : kv ∈ listBlobs st pre) : kv ∈ st.source ∧ strStarts pre kv.1 = true := by
  unfold listBlobs at h
  exact ⟨List.mem_of_mem_filter h, by simpa using List.of_mem_filter h⟩

lemma mem_movePlan (cfg : DbConfig) (t now : Int) (env : Key → Nat → BlobEnv)
    (blobs : List (Key × Nat)) (op : MoveOp) (h : op ∈ movePlan cfg t now env blobs) :
    ∃ kv ∈ blobs, op.key = kv.1 ∧ op.tk = destKey cfg kv.1 := by
  unfold movePlan at h
  obtain ⟨kv, hkv, heq⟩ := List.mem_filterMap.1 h
  rcases hp : passes cfg t now kv.1
  · rw [hp] at heq
    simp at heq
  · rw [hp] at heq
    simp only [if_true, Option.some.injEq] at heq
    subst heq
    exact ⟨kv, hkv, rfl, rfl⟩

lemma applyOp_source_sub (dry : Bool) (st : StorageState) (op : MoveOp) (kv : Key × Nat)
    (h : kv ∈ (applyOp dry st op).source) : kv ∈ st.source := by
  unfold applyOp move_blob at h
  cases dry with
  | true => exact h
  | false =>
    obtain ⟨k, tk, c, d⟩ := op
    cases c with
    | raise => exact h
    | falsy => exact h
    | ok cc =>
      cases d with
      | raise => exact h
      | ok => exact List.mem_of_mem_filter h

lemma applyMoves_source_sub (dry : Bool) (P : List MoveOp) :
    ∀ (st : StorageState) (kv : Key × Nat), kv ∈ (applyMoves dry st P).source → kv ∈ st.source := by
  induction P with
  | nil => intro st kv h; exact h
  | cons op P ih =>
    intro st kv h
    exact applyOp_source_sub dry st op kv (ih (applyOp dry st op) kv h)

lemma process_server_source_sub (server : Key) (cfg : DbConfig) (t now : Int) (dry : Bool)
    (env : Key → Nat → BlobEnv) (st : StorageState) (kv : Key × Nat)
    (h : kv ∈ (process_server_backups server cfg t now dry env st).2.source) :
    kv ∈ st.source := by
  rw [process_server_char] at h
  exact applyMoves_source_sub dry _ st kv h

lemma filter_filter_ne (l : List (Key × Nat)) (k pre : Key) (h : strStarts pre k = false) :
    (l.filter (fun kv => kv.1 != k)).filter (fun kv => strStarts pre kv.1)
      = l.filter (fun kv => strStarts pre kv.1) := by
  induction l with
  | nil => rfl
  | cons kv rest ih =>
    by_cases hk : kv.1 = k
    · rw [List.filter_cons, List.filter_cons]
      have h1 : (kv.1 != k) = false := by simp [hk]
      have h2 : strStarts pre kv.1 = false := by rw [hk]; exact h
      simp only [h1, h2, Bool.false_eq_true, if_false]
      exact ih
    · rw [List.filter_cons]
      have h1 : (kv.1 != k) = true := by simp [hk]
      simp only [h1, if_true]
      rw [List.filter_cons, List.filter_cons]
      rcases hp : strStarts pre kv.1 <;> simp only [hp, Bool.false_eq_true, if_false, if_true]
      · exact ih
      · rw [ih]

lemma listBlobs_applyOp (dry : Bool) (st : StorageState) (op : MoveOp) (pre : Key)
    (h : strStarts pre op.key = false) :
    listBlobs (applyOp dry st op) pre = listBlobs st pre := by
  unfold applyOp move_blob
  cases dry with
  | true => rfl
  | false =>
    obtain ⟨k, tk, c, d⟩ := op
    cases c with
    | raise => rfl
    | falsy => rfl
    | ok cc =>
      cases d with
      | raise => rfl
      | ok => exact filter_filter_ne st.source k pre h

lemma listBlobs_applyMoves (dry : Bool) (P : List MoveOp) (pre : Key) :
    ∀ st : StorageState, (∀ op ∈ P, strStarts pre op.key = false) →
    listBlobs (applyMoves dry st P) pre = listBlobs st pre := by
  induction P with
  | nil => intro st _; rfl
  | cons op P ih =>
    intro st h
    rw [show applyMoves dry st (op :: P) = applyMoves dry (applyOp dry st op) P from rfl]
    rw [ih _ fun o ho => h o (List.mem_cons_of_mem _ ho)]
    exact listBlobs_applyOp dry st op pre (h op (List.mem_cons_self op P))

lemma writeTarget_comm (st : StorageState) (k1 k2 : Key) (c1 c2 : Nat) (h : k1 ≠ k2) :
    writeTarget (writeTarget st k1 c1) k2 c2 = writeTarget (writeTarget st k2 c2) k1 c1 := by
  refine StorageState.ext rfl ?_
  funext q
  by_cases h1 : q = k1
  · by_cases h2 : q = k2
    · exact absurd (h1.symm.trans h2) h
    · simp [writeTarget, h1, h2, h, Ne.symm h]
  · by_cases h2 : q = k2 <;> simp [writeTarget, h1, h2, h, Ne.symm h]

lemma deleteSource_comm (st : StorageState) (k1 k2 : Key) :
    deleteSource (deleteSource st k1) k2 = deleteSource (deleteSource st k2) k1 := by
  refine StorageState.ext ?_ rfl
  show (st.source.filter fun kv => kv.1 != k1).filter (fun kv => kv.1 != k2)
      = (st.source.filter fun kv => kv.1 != k2).filter (fun kv => kv.1 != k1)
  induction st.source with
  | nil => rfl
  | cons kv rest ih =>
    rcases ha : (kv.1 != k1) <;> rcases hb : (kv.1 != k2) <;>
      simp [List.filter_cons, ha, hb, ih]

lemma writeTarget_deleteSource (st : StorageState) (k tk : Key) (c : Nat) :
    writeTarget (deleteSource st k) tk c = deleteSource (writeTarget st tk c) k := rfl

lemma applyOp_comm (dry : Bool) (st : StorageState) (op1 op2 : MoveOp)
    (ht : op1.tk ≠ op2.tk) :
    applyOp dry (applyOp dry st op1) op2 = applyOp dry (applyOp dry st op2) op1 := by
  cases dry with
  | true => rfl
  | false =>
    obtain ⟨k1, tk1, c1, d1⟩ := op1
    obtain ⟨k2, tk2, c2, d2⟩ := op2
    simp only at ht
    cases c1 with
    | raise => rfl
    | falsy => rfl
    | ok cc1 =>
      cases c2 with
      | raise => rfl
      | falsy => rfl
      | ok cc2 =>
        cases d1 with
        | raise =>
          cases d2 with
          | raise =>
            show writeTarget (writeTarget st tk1 cc1) tk2 cc2
                = writeTarget (writeTarget st tk2 cc2) tk1 cc1
            exact writeTarget_comm st tk1 tk2 cc1 cc2 ht
          | ok =>
            show deleteSource (writeTarget (writeTarget st tk1 cc1) tk2 cc2) k2
                = writeTarget (deleteSource (writeTarget st tk2 cc2) k2) tk1 cc1
            rw [writeTarget_comm st tk1 tk2 cc1 cc2 ht, writeTarget_deleteSource]
        | ok =>
          cases d2 with
          | raise =>
            show writeTarget (deleteSource (writeTarget st tk1 cc1) k1) tk2 cc2
                = deleteSource (writeTarget (writeTarget st tk2 cc2) tk1 cc1) k1
            rw [writeTarget_deleteSource, writeTarget_comm st tk1 tk2 cc1 cc2 ht]
          | ok =>
            show deleteSource (writeTarget (deleteSource (writeTarget st tk1 cc1) k1) tk2 cc2) k2
                = deleteSource (writeTarget (deleteSource (writeTarget st tk2 cc2) k2) tk1 cc1) k1
            rw [writeTarget_deleteSource, writeTarget_deleteSource,
              writeTarget_comm st tk1 tk2 cc1 cc2 ht, deleteSource_comm]

lemma applyMoves_applyOp (dry : Bool) (op : MoveOp) (P : List MoveOp) :
    ∀ st : StorageState, (∀ o ∈ P, op.tk ≠ o.tk) →
    applyMoves dry (applyOp dry st op) P = applyOp dry (applyMoves dry st P) op := by
  induction P with
  | nil => intro st _; rfl
  | cons op' P ih =>
    intro st h
    show applyMoves dry (applyOp dry (applyOp dry st op) op') P
        = applyOp dry (applyMoves dry (applyOp dry st op') P) op
    rw [applyOp_comm dry st op op' (h op' (List.mem_cons_self op' P))]
    exact ih (applyOp dry st op') fun o ho => h o (List.mem_cons_of_mem _ ho)

lemma applyMoves_comm (dry : Bool) (P1 P2 : List MoveOp) :
    ∀ st : StorageState, (∀ o1 ∈ P1, ∀ o2 ∈ P2, o1.tk ≠ o2.tk) →
    applyMoves dry (applyMoves dry st P1) P2 = applyMoves dry (applyMoves dry st P2) P1 := by
  induction P1 with
  | nil => intro st _; rfl
  | cons op P1 ih =>
    intro st h
    show applyMoves dry (applyMoves dry (applyOp dry st op) P1) P2
        = applyMoves dry (applyMoves dry st P2) (op :: P1)
    rw [ih (applyOp dry st op) fun o1 h1 o2 h2 => h o1 (List.mem_cons_of_mem _ h1) o2 h2]
    rw [applyMoves_applyOp dry op P2 st fun o ho => h op (List.mem_cons_self _ _) o ho]
    rfl

lemma strStarts_total (k : Key) : ∀ p1 p2 : Key, strStarts p1 k = true → strStarts p2 k = true →
    strStarts p1 p2 = true ∨ strStarts p2 p1 = true := by
  induction k with
  | nil =>
    intro p1 p2 h1 h2
    cases p1 with
    | nil => exact Or.inl rfl
    | cons a p1 => simp [strStarts] at h1
  | cons c k ih =>
    intro p1 p2 h1 h2
    cases p1 with
    | nil => exact Or.inl rfl
    | cons a p1 =>
      cases p2 with
      | nil => exact Or.inr rfl
      | cons b p2 =>
        rw [strStarts, Bool.and_eq_true, beq_iff_eq] at h1 h2
        obtain ⟨rfl, h1⟩ := h1
        obtain ⟨rfl, h2⟩ := h2
        rcases ih p1 p2 h1 h2 with h | h
        · exact Or.inl (by simp [strStarts, h])
        · exact Or.inr (by simp [strStarts, h])

lemma key_ne_of_incomparable (pa pb k1 k2 : Key)
    (h1 : strStarts pa k1 = true) (h2 : strStarts pb k2 = true)
    (hab : strStarts pa pb = false) (hba : strStarts pb pa = false) : k1 ≠ k2 := by
  rintro rfl
  rcases strStarts_total k1 pa pb h1 h2 with h | h
  · rw [hab] at h
    simp at h
  · rw [hba] at h
    simp at h

/-- The spec's correct-configuration assumptions: no two tasks own the
same source object, and distinct source keys map to distinct destination
keys.  Two servers are compatible when they are equal or their listing
prefixes are incomparable. -/
def compat (cfg : DbConfig) (a b : Key) : Prop :=
  a = b ∨ (strStarts (prefOf cfg a) (prefOf cfg b) = false
            ∧ strStarts (prefOf cfg b) (prefOf cfg a) = false)

lemma compat_symm (cfg : DbConfig) : Symmetric (compat cfg) := by
  intro x y h
  rcases h with rfl | ⟨h1, h2⟩
  · exact Or.inl rfl
  · exact Or.inr ⟨h2, h1⟩

lemma cross_keys (cfg : DbConfig) (t now : Int) (env : Key → Nat → BlobEnv)
    (st : StorageState) (a b : Key)
    (hab : strStarts (prefOf cfg a) (prefOf cfg b) = false)
    (hba : strStarts (prefOf cfg b) (prefOf cfg a) = false) :
    ∀ o ∈ movePlan cfg t now env (listBlobs st (prefOf cfg a)),
      strStarts (prefOf cfg b) o.key = false := by
  intro o ho
  obtain ⟨kv, hkv, hk, _⟩ := mem_movePlan cfg t now env _ o ho
  obtain ⟨_, hpre⟩ := mem_listBlobs st _ kv hkv
  rcases hb : strStarts (prefOf cfg b) o.key
  · rfl
  · rw [hk] at hb
    rcases strStarts_total kv.1 (prefOf cfg a) (prefOf cfg b) hpre hb with h | h
    · rw [hab] at h
      simp at h
    · rw [hba] at h
      simp at h

lemma cross_tks (cfg : DbConfig) (t now : Int) (env : Key → Nat → BlobEnv)
    (st0 st : StorageState) (a b : Key)
    (hinj : ∀ kv1 ∈ st0.source, ∀ kv2 ∈ st0.source, kv1.1 ≠ kv2.1 →
      destKey cfg kv1.1 ≠ destKey cfg kv2.1)
    (hsub : ∀ kv ∈ st.source, kv ∈ st0.source)
    (hab : strStarts (prefOf cfg a) (prefOf cfg b) = false)
    (hba : strStarts (prefOf cfg b) (prefOf cfg a) = false) :
    ∀ o1 ∈ movePlan cfg t now env (listBlobs st (prefOf cfg a)),
    ∀ o2 ∈ movePlan cfg t now env (listBlobs st (prefOf cfg b)), o1.tk ≠ o2.tk := by
  intro o1 h1 o2 h2
  obtain ⟨kv1, hkv1, hk1, ht1⟩ := mem_movePlan cfg t now env _ o1 h1
  obtain ⟨kv2, hkv2, hk2, ht2⟩ := mem_movePlan cfg t now env _ o2 h2
  obtain ⟨hm1, hp1⟩ := mem_listBlobs st _ kv1 hkv1
  obtain ⟨hm2, hp2⟩ := mem_listBlobs st _ kv2 hkv2
  rw [ht1, ht2]
  exact hinj kv1 (hsub _ hm1) kv2 (hsub _ hm2)
    (key_ne_of_incomparable (prefOf cfg a) (prefOf cfg b) kv1.1 kv2.1 hp1 hp2 hab hba)

lemma groupStep_comm (cfg : DbConfig) (t now : Int) (dry : Bool) (env : Key → Nat → BlobEnv)
    (st0 : StorageState)
    (hinj : ∀ kv1 ∈ st0.source, ∀ kv2 ∈ st0.source, kv1.1 ≠ kv2.1 →
      destKey cfg kv1.1 ≠ destKey cfg kv2.1)
    (a b : Key) (hc : compat cfg a b) (acc : (Nat × Nat) × StorageState)
    (hsub : ∀ kv ∈ acc.2.source, kv ∈ st0.source) :
    groupStep cfg t now dry env (groupStep cfg t now dry env acc a) b
      = groupStep cfg t now dry env (groupStep cfg t now dry env acc b) a := by
  rcases hc with rfl | ⟨hab, hba⟩
  · rfl
  have hKA := cross_keys cfg t now env acc.2 a b hab hba
  have hKB := cross_keys cfg t now env acc.2 b a hba hab
  have hT := cross_tks cfg t now env st0 acc.2 a b hinj hsub hab hba
  simp only [groupStep, process_server_char]
  rw [listBlobs_applyMoves dry _ (prefOf cfg b) acc.2 hKA,
    listBlobs_applyMoves dry _ (prefOf cfg a) acc.2 hKB,
    applyMoves_comm dry _ _ acc.2 hT]
  refine Prod.ext (Prod.ext ?_ ?_) rfl <;> simp <;> omega

lemma groupStep_sub (cfg : DbConfig) (t now : Int) (dry : Bool) (env : Key → Nat → BlobEnv)
    (st0 : StorageState) (acc : (Nat × Nat) × StorageState) (s : Key)
    (h : ∀ kv ∈ acc.2.source, kv ∈ st0.source) :
    ∀ kv ∈ (groupStep cfg t now dry env acc s).2.source, kv ∈ st0.source := by
  intro kv hkv
  exact h kv (process_server_source_sub s cfg t now dry env acc.2 kv hkv)

lemma runFold_perm (cfg : DbConfig) (t now : Int) (dry : Bool) (env : Key → Nat → BlobEnv)
    (st0 : StorageState)
    (hinj : ∀ kv1 ∈ st0.source, ∀ kv2 ∈ st0.source, kv1.1 ≠ kv2.1 →
      destKey cfg kv1.1 ≠ destKey cfg kv2.1)
    {l1 l2 : List Key} (hperm : l1.Perm l2) :
    ∀ acc : (Nat × Nat) × StorageState, l1.Pairwise (compat cfg) →
      (∀ kv ∈ acc.2.source, kv ∈ st0.source) →
      l1.foldl (groupStep cfg t now dry env) acc
        = l2.foldl (groupStep cfg t now dry env) acc := by
  induction hperm with
  | nil => intro acc _ _; rfl
  | cons x hperm ih =>
    intro acc hpw hsub
    rw [List.foldl_cons, List.foldl_cons]
    exact ih _ (List.pairwise_cons.1 hpw).2 (groupStep_sub cfg t now dry env st0 acc x hsub)
  | swap x y l =>
    intro acc hpw hsub
    rw [List.foldl_cons, List.foldl_cons, List.foldl_cons, List.foldl_cons]
    rw [groupStep_comm cfg t now dry env st0 hinj y x
      ((List.pairwise_cons.1 hpw).1 x (List.mem_cons_self x l)) acc hsub]
  | trans h1 h2 ih1 ih2 =>
    intro acc hpw hsub
    rw [ih1 acc hpw hsub,
      ih2 acc ((h1.pairwise_iff fun {x y} hxy => compat_symm cfg hxy).1 hpw) hsub]

/-- Claim C8: over the same storage state, two runs of the per-group
archival whose per-server tasks complete in different orders (the only
observable difference between worker-pool sizes, e.g. 1 vs 8) produce the
same `(total_moved, total_processed)` totals and the same final storage
state, provided the configured servers own pairwise-incomparable listing
prefixes and distinct source keys map to distinct destination keys (the
spec's correct-configuration assumptions). -/
theorem c8_order_independence (cfg : DbConfig) (t now : Int) (dry : Bool)
    (env : Key → Nat → BlobEnv) (st : StorageState) (order1 order2 : List Key)
    (hperm : order1.Perm order2)
    (hcompat : order1.Pairwise (compat cfg))
    (hinj : ∀ kv1 ∈ st.source, ∀ kv2 ∈ st.source, kv1.1 ≠ kv2.1 →
      destKey cfg kv1.1 ≠ destKey cfg kv2.1) :
    runTasks cfg t now dry env order1 st = runTasks cfg t now dry env order2 st :=
  runFold_perm cfg t now dry env st hinj hperm ((0, 0), st) hcompat fun _ h => h

/-- Witness for `c8_order_independence`: two servers processed in the two
possible completion orders over a concrete two-object store. -/
theorem c8_order_independence_witness :
    runTasks ⟨"b".data, "a".data, ".g".data⟩ 30 (dateSec ⟨2024, 3, 1⟩) false
        (fun _ c => ⟨CopyResult.ok c, DelResult.ok⟩)
        ["x".data, "y".data]
        ⟨[("b/x/2024-01-15_f.g".data, 1), ("b/y/2020-01-15_f.g".data, 2)], fun _ => none⟩
      = runTasks ⟨"b".data, "a".data, ".g".data⟩ 30 (dateSec ⟨2024, 3, 1⟩) false
        (fun _ c => ⟨CopyResult.ok c, DelResult.ok⟩)
        ["y".data, "x".data]
        ⟨[("b/x/2024-01-15_f.g".data, 1), ("b/y/2020-01-15_f.g".data, 2)], fun _ => none⟩ := by
  refine c8_order_independence _ 30 _ false _ _ _ _
    (List.Perm.swap "y".data "x".data []) ?_ ?_
  · refine List.Pairwise.cons ?_ (List.pairwise_singleton _ _)
    intro z hz
    rw [List.mem_singleton] at hz
    subst hz
    exact Or.inr ⟨by decide, by decide⟩
  · decide

end BackupArchiving
